import Mathlib

/-!
Verification of the data-access and integrity layer of the event-listing
application: the connection cache (`lib/mongodb.ts`), the Event schema with
`slugify` / `normalizeTime` and its pre-save hook (`database/event.model.ts`),
the Booking schema with its referential-integrity pre-save hook
(`database/booking.model.ts`), and the GET-by-slug route handler.

Strings are modeled as `List Char`.  Machine primitives that are part of the
JavaScript runtime rather than of the repository (`Date` parsing, the mongoose
driver, promises) are modeled explicitly where their behavior matters and are
taken as parameters where only their interface matters.
-/

namespace DevEvents

/-! ### Character classes and JavaScript string primitives -/

/-- Whitespace in the sense of JavaScript (the class matched by `\s` and
stripped by `String.prototype.trim`): space, the control whitespace
characters, NBSP, and the Unicode space separators. -/
def isJsWs (c : Char) : Bool :=
  let n := c.toNat
  n = 0x20 || n = 0x09 || n = 0x0A || n = 0x0B || n = 0x0C || n = 0x0D ||
  n = 0xA0 || n = 0x1680 || (0x2000 ≤ n && n ≤ 0x200A) || n = 0x2028 ||
  n = 0x2029 || n = 0x202F || n = 0x205F || n = 0x3000 || n = 0xFEFF

/-- Characters of the `[a-z0-9]` class used by the slug regexes
(code points 97 to 122 and 48 to 57). -/
def isAlnum (c : Char) : Bool :=
  let n := c.toNat
  (97 ≤ n && n ≤ 122) || (48 ≤ n && n ≤ 57)

/-- Lowercasing of a single character as `toLowerCase` acts on the letters
relevant to this code base (the ASCII range: A to Z map to a to z). -/
def jsToLower (c : Char) : Char :=
  let n := c.toNat
  if 65 ≤ n && n ≤ 90 then Char.ofNat (n + 32) else c

/-- Model of `String.prototype.trimStart`: drop leading whitespace. -/
def jsTrimStart (l : List Char) : List Char := l.dropWhile isJsWs

/-- Model of `String.prototype.trimEnd`: drop trailing whitespace. -/
def jsTrimEnd (l : List Char) : List Char := (l.reverse.dropWhile isJsWs).reverse

/-- Model of `String.prototype.trim`: drop whitespace at both ends. -/
def jsTrim (l : List Char) : List Char := jsTrimStart (jsTrimEnd l)

/-! ### slugify (database/event.model.ts, lines 24 to 30)

The source is
`value.toLowerCase().trim().replace(/[^a-z0-9]+/g, "-").replace(/^-+|-+$/g, "")`.

The global replacement of `[^a-z0-9]+` by `"-"` rewrites every maximal run of
characters outside `[a-z0-9]` into a single hyphen.  `replaceRuns` implements
exactly that pass by structural recursion: an alphanumeric character is kept;
a character outside the class contributes a hyphen unless the rest of the
replacement already begins with the hyphen produced for the same run (the
theorem `replaceRuns_cons_neg` below certifies the maximal-run reading).  The
second replacement strips the leading run and the trailing run of hyphens. -/

/-- Replace every maximal run of characters outside `[a-z0-9]` by one
hyphen, the global effect of `.replace(/[^a-z0-9]+/g, "-")`. -/
def replaceRuns : List Char → List Char
  | [] => []
  | c :: cs =>
    if isAlnum c then c :: replaceRuns cs
    else if (replaceRuns cs).head? = some '-' then replaceRuns cs
    else '-' :: replaceRuns cs

/-- Strip the leading run of hyphens, the `^-+` half of the final replace. -/
def stripLead (l : List Char) : List Char := l.dropWhile (fun c => c = '-')

/-- Strip the trailing run of hyphens, the `-+$` half of the final replace. -/
def stripTrail (l : List Char) : List Char :=
  (l.reverse.dropWhile (fun c => c = '-')).reverse

/-- Model of `.replace(/^-+|-+$/g, "")`. -/
def stripHyphens (l : List Char) : List Char := stripLead (stripTrail l)

/-- Model of `slugify` from `database/event.model.ts`: lowercase, trim,
collapse runs outside `[a-z0-9]` to single hyphens, strip edge hyphens. -/
def slugify (l : List Char) : List Char :=
  stripHyphens (replaceRuns (jsTrim (l.map jsToLower)))

/-- Slug computation exactly as claim C5 words it: lowercase the input,
replace every maximal run of characters outside `[a-z0-9]` with a single
hyphen, and strip leading and trailing hyphens — with no trimming step. -/
def slugifySpec (l : List Char) : List Char :=
  stripHyphens (replaceRuns (l.map jsToLower))

/-! ### normalizeTime (database/event.model.ts, lines 33 to 49) -/

/-- Decimal digit characters, the `[0-9]` class. -/
def isDigit (c : Char) : Bool := 48 ≤ c.toNat && c.toNat ≤ 57

/-- Numeric value of a digit character. -/
def digitVal (c : Char) : Nat := c.toNat - 48

/-- Model of `/^([0-9]{1,2}):([0-9]{2})$/.exec` followed by `Number()` on the
two captured groups: the anchored pattern admits exactly the strings made of
one or two digits, a colon, and exactly two digits, and the groups convert to
their decimal values. -/
def parseHHMM (l : List Char) : Option (Nat × Nat) :=
  match l with
  | [a, c, b1, b2] =>
    if isDigit a && (c = ':') && isDigit b1 && isDigit b2 then
      some (digitVal a, 10 * digitVal b1 + digitVal b2)
    else none
  | [a1, a2, c, b1, b2] =>
    if isDigit a1 && isDigit a2 && (c = ':') && isDigit b1 && isDigit b2 then
      some (10 * digitVal a1 + digitVal a2, 10 * digitVal b1 + digitVal b2)
    else none
  | _ => none

/-- Rendering of a number below 100 padded to two digits, the effect of
`toString().padStart(2, "0")` on the hour and minute values (both are below
100 because they come from at most two digits). -/
def pad2 (n : Nat) : List Char :=
  if n < 10 then ['0', Char.ofNat (48 + n)]
  else [Char.ofNat (48 + n / 10), Char.ofNat (48 + n % 10)]

/-- Model of `normalizeTime`: trim the input, match the anchored `HH:MM`
pattern, reject hour above 23 or minute above 59, and render the zero-padded
canonical form.  The `Number.isInteger` checks of the source are identically
true for values produced from digit groups and add no further constraint. -/
def normalizeTime (l : List Char) : Option (List Char) :=
  match parseHHMM (jsTrim l) with
  | none => none
  | some (h, m) =>
    if h > 23 || m > 59 then none
    else some (pad2 h ++ ':' :: pad2 m)

/-- Time acceptance exactly as claim C6 words it: the input itself (no
trimming) must match the one-or-two-digit hour, colon, exactly-two-digit
minute pattern with hour at most 23 and minute at most 59, and the accepted
value is rendered zero padded. -/
def normalizeTimeSpec (l : List Char) : Option (List Char) :=
  match parseHHMM l with
  | none => none
  | some (h, m) =>
    if h ≤ 23 && m ≤ 59 then some (pad2 h ++ ':' :: pad2 m)
    else none

/-! ### Lemmas about the character classes -/

theorem isAlnum_of_isJsWs {c : Char} (h : isJsWs c = true) : isAlnum c = false := by
  rw [Bool.eq_false_iff]
  intro hal
  simp only [isJsWs, Bool.or_eq_true, Bool.and_eq_true, decide_eq_true_eq] at h
  simp only [isAlnum, Bool.or_eq_true, Bool.and_eq_true, decide_eq_true_eq] at hal
  omega

theorem ne_hyphen_of_isAlnum {c : Char} (h : isAlnum c = true) : c ≠ '-' := by
  intro hc
  subst hc
  simp [isAlnum] at h

theorem isAlnum_hyphen : isAlnum '-' = false := by decide

/-! ### Lemmas about replaceRuns -/

theorem replaceRuns_nil : replaceRuns [] = [] := rfl

theorem replaceRuns_cons (c : Char) (cs : List Char) :
    replaceRuns (c :: cs) =
      if isAlnum c then c :: replaceRuns cs
      else if (replaceRuns cs).head? = some '-' then replaceRuns cs
      else '-' :: replaceRuns cs := rfl

theorem replaceRuns_cons_pos {c : Char} (cs : List Char) (h : isAlnum c = true) :
    replaceRuns (c :: cs) = c :: replaceRuns cs := by
  rw [replaceRuns_cons, if_pos h]

/-- Head of the replacement of a list beginning with a character outside the
class: it is the hyphen produced for that run. -/
theorem head?_replaceRuns_neg {c : Char} (cs : List Char) (h : isAlnum c = false) :
    (replaceRuns (c :: cs)).head? = some '-' := by
  rw [replaceRuns_cons, if_neg (by simp [h])]
  by_cases hh : (replaceRuns cs).head? = some '-'
  · rw [if_pos hh]; exact hh
  · rw [if_neg hh]; rfl

/-- Head of the replacement of a list beginning with a character of the
class: that character is kept. -/
theorem head?_replaceRuns_pos {c : Char} (cs : List Char) (h : isAlnum c = true) :
    (replaceRuns (c :: cs)).head? = some c := by
  rw [replaceRuns_cons_pos cs h]; rfl

theorem replaceRuns_ne_nil {l : List Char} (h : l ≠ []) : replaceRuns l ≠ [] := by
  match l with
  | c :: cs =>
    by_cases hc : isAlnum c
    · simp [replaceRuns_cons_pos cs hc]
    · intro hnil
      have hhd := head?_replaceRuns_neg cs (by simpa using hc)
      rw [hnil] at hhd
      simp at hhd

/-- Certification of the maximal-run reading of `replaceRuns`: on a list
beginning outside the class, the whole leading run is rewritten to one
hyphen. -/
theorem replaceRuns_cons_neg :
    ∀ (cs : List Char) (c : Char), isAlnum c = false →
      replaceRuns (c :: cs) = '-' :: replaceRuns (cs.dropWhile (fun x => !isAlnum x)) := by
  intro cs
  induction cs with
  | nil =>
    intro c h
    rw [replaceRuns_cons, if_neg (by simp [h])]
    rfl
  | cons d ds ih =>
    intro c h
    rw [replaceRuns_cons c (d :: ds), if_neg (by simp [h])]
    by_cases hd : isAlnum d
    · rw [List.dropWhile_cons_of_neg (by simpa using hd)]
      rw [if_neg (by rw [head?_replaceRuns_pos ds hd]
                     simpa using ne_hyphen_of_isAlnum hd)]
    · have hd' : isAlnum d = false := by simpa using hd
      rw [List.dropWhile_cons_of_pos (by simp [hd'])]
      rw [if_pos (head?_replaceRuns_neg ds hd')]
      exact ih d hd'

/-! ### Lemmas about stripping hyphens -/

theorem stripTrail_nil : stripTrail [] = [] := rfl

/-- Prepending a hyphen does not change the stripped form. -/
theorem stripHyphens_cons_hyphen (y : List Char) :
    stripHyphens ('-' :: y) = stripHyphens y := by
  unfold stripHyphens stripTrail
  have : ('-' :: y).reverse = y.reverse ++ ['-'] := by simp
  rw [this, List.dropWhile_append]
  split
  · next he =>
    simp only [List.isEmpty_iff] at he
    rw [he]
    simp [stripLead]
  · next he =>
    simp only [List.isEmpty_iff] at he
    rw [List.reverse_append]
    simp only [List.reverse_cons, List.reverse_nil, List.nil_append, List.singleton_append]
    unfold stripLead
    rw [List.dropWhile_cons_of_pos (by simp)]

/-- Appending a hyphen does not change the stripped form. -/
theorem stripHyphens_append_hyphen (y : List Char) :
    stripHyphens (y ++ ['-']) = stripHyphens y := by
  unfold stripHyphens stripTrail
  rw [List.reverse_append]
  simp only [List.reverse_cons, List.reverse_nil, List.nil_append, List.singleton_append]
  rw [List.dropWhile_cons_of_pos (by simp)]

/-! ### Eliminating the trim step (claim C5) -/

/-- Dropping with a weaker predicate first does not change a drop with a
stronger one. -/
theorem dropWhile_dropWhile {α : Type} (p q : α → Bool)
    (hpq : ∀ a, q a = true → p a = true) :
    ∀ l : List α, (l.dropWhile q).dropWhile p = l.dropWhile p := by
  intro l
  induction l with
  | nil => rfl
  | cons a l ih =>
    by_cases hq : q a
    · rw [List.dropWhile_cons_of_pos hq, ih, List.dropWhile_cons_of_pos (hpq a hq)]
    · rw [List.dropWhile_cons_of_neg hq]

/-- Dropping the leading run of characters outside the class does not change
the stripped replacement. -/
theorem stripHyphens_replaceRuns_dropWhile (l : List Char) :
    stripHyphens (replaceRuns (l.dropWhile (fun x => !isAlnum x))) =
      stripHyphens (replaceRuns l) := by
  cases l with
  | nil => rfl
  | cons c cs =>
    by_cases hc : isAlnum c
    · rw [List.dropWhile_cons_of_neg (by simpa using hc)]
    · rw [List.dropWhile_cons_of_pos (by simpa using hc),
        replaceRuns_cons_neg cs c (by simpa using hc),
        stripHyphens_cons_hyphen]

/-- Leading whitespace does not change the stripped replacement. -/
theorem stripHyphens_replaceRuns_trimStart (l : List Char) :
    stripHyphens (replaceRuns (jsTrimStart l)) = stripHyphens (replaceRuns l) := by
  unfold jsTrimStart
  calc stripHyphens (replaceRuns (l.dropWhile isJsWs))
      = stripHyphens (replaceRuns ((l.dropWhile isJsWs).dropWhile (fun x => !isAlnum x))) :=
        (stripHyphens_replaceRuns_dropWhile _).symm
    _ = stripHyphens (replaceRuns (l.dropWhile (fun x => !isAlnum x))) := by
        rw [dropWhile_dropWhile (fun x => !isAlnum x) isJsWs
          (fun a ha => by simp [isAlnum_of_isJsWs ha])]
    _ = stripHyphens (replaceRuns l) := stripHyphens_replaceRuns_dropWhile l

/-- True when the last character of the list lies outside the class. -/
def endsOutside (l : List Char) : Bool :=
  match l.getLast? with
  | some d => !isAlnum d
  | none => false

theorem head?_append_left {α : Type} {xs : List α} (ys : List α) (h : xs ≠ []) :
    (xs ++ ys).head? = xs.head? := by
  cases xs with
  | nil => exact absurd rfl h
  | cons a l => simp

theorem endsOutside_nil : endsOutside [] = false := rfl

theorem endsOutside_single (a : Char) : endsOutside [a] = !isAlnum a := rfl

theorem endsOutside_cons_cons (a b : Char) (bs : List Char) :
    endsOutside (a :: b :: bs) = endsOutside (b :: bs) := by
  simp [endsOutside]

/-- Appending one character of the class extends the replacement by that
character. -/
theorem replaceRuns_append_pos (l : List Char) {c : Char} (hc : isAlnum c = true) :
    replaceRuns (l ++ [c]) = replaceRuns l ++ [c] := by
  induction l with
  | nil => simp [replaceRuns_cons_pos [] hc, replaceRuns_nil]
  | cons a l ih =>
    by_cases ha : isAlnum a
    · rw [List.cons_append, replaceRuns_cons_pos _ ha, ih, replaceRuns_cons_pos _ ha,
        List.cons_append]
    · have ha' : isAlnum a = false := by simpa using ha
      have hcn : c ≠ '-' := ne_hyphen_of_isAlnum hc
      rw [List.cons_append, replaceRuns_cons a (l ++ [c]), replaceRuns_cons a l, ih]
      cases hrl : replaceRuns l with
      | nil => simp [ha', hcn]
      | cons x xs =>
        by_cases hx : x = '-' <;> simp [ha', hx]

/-- Appending one character outside the class either merges into the final
run or opens a new run of its own. -/
theorem replaceRuns_append_neg (l : List Char) {c : Char} (hc : isAlnum c = false) :
    replaceRuns (l ++ [c]) =
      if endsOutside l then replaceRuns l else replaceRuns l ++ ['-'] := by
  induction l with
  | nil =>
    rw [endsOutside_nil, if_neg (by simp), List.nil_append, replaceRuns_nil,
      List.nil_append, replaceRuns_cons, replaceRuns_nil]
    simp [hc]
  | cons a l ih =>
    by_cases ha : isAlnum a
    · rw [List.cons_append, replaceRuns_cons_pos _ ha, ih]
      cases l with
      | nil =>
        rw [endsOutside_single, endsOutside_nil]
        simp [ha, replaceRuns_cons_pos [] ha, replaceRuns_nil]
      | cons b bs =>
        rw [endsOutside_cons_cons]
        by_cases hb : endsOutside (b :: bs)
        · rw [if_pos hb, if_pos hb, replaceRuns_cons_pos _ ha]
        · rw [if_neg (by simpa using hb), if_neg (by simpa using hb),
            replaceRuns_cons_pos _ ha, List.cons_append]
    · have ha' : isAlnum a = false := by simpa using ha
      cases l with
      | nil =>
        rw [endsOutside_single, ha']
        rw [if_pos (by simp), List.cons_append, List.nil_append,
          replaceRuns_cons_neg [c] a ha', replaceRuns_cons_neg [] a ha',
          List.dropWhile_cons_of_pos (by simp [hc])]
      | cons b bs =>
        have hne : replaceRuns (b :: bs) ≠ [] := replaceRuns_ne_nil (by simp)
        rw [List.cons_append, endsOutside_cons_cons]
        by_cases hb : endsOutside (b :: bs)
        · have ih' : replaceRuns ((b :: bs) ++ [c]) = replaceRuns (b :: bs) := by
            rw [ih, if_pos hb]
          rw [if_pos hb, replaceRuns_cons a ((b :: bs) ++ [c]),
            replaceRuns_cons a (b :: bs), ih']
        · have ih' : replaceRuns ((b :: bs) ++ [c]) = replaceRuns (b :: bs) ++ ['-'] := by
            rw [ih, if_neg hb]
          rw [if_neg hb, replaceRuns_cons a ((b :: bs) ++ [c]),
            replaceRuns_cons a (b :: bs), ih', head?_append_left ['-'] hne]
          by_cases hh : (replaceRuns (b :: bs)).head? = some '-' <;>
            simp [ha', hh]

/-- Appending one whitespace character does not change the stripped
replacement. -/
theorem stripHyphens_replaceRuns_append_ws (l : List Char) {w : Char}
    (hw : isJsWs w = true) :
    stripHyphens (replaceRuns (l ++ [w])) = stripHyphens (replaceRuns l) := by
  rw [replaceRuns_append_neg l (isAlnum_of_isJsWs hw)]
  by_cases he : endsOutside l
  · rw [if_pos he]
  · rw [if_neg he, stripHyphens_append_hyphen]

/-- Trailing whitespace does not change the stripped replacement. -/
theorem stripHyphens_replaceRuns_trimEnd (l : List Char) :
    stripHyphens (replaceRuns (jsTrimEnd l)) = stripHyphens (replaceRuns l) := by
  unfold jsTrimEnd
  have main : ∀ r : List Char,
      stripHyphens (replaceRuns ((r.dropWhile isJsWs).reverse)) =
        stripHyphens (replaceRuns r.reverse) := by
    intro r
    induction r with
    | nil => rfl
    | cons a r ih =>
      by_cases ha : isJsWs a
      · rw [List.dropWhile_cons_of_pos ha, ih, List.reverse_cons,
          stripHyphens_replaceRuns_append_ws r.reverse ha]
      · rw [List.dropWhile_cons_of_neg ha]
  have := main l.reverse
  rwa [List.reverse_reverse] at this

/-- Claim C5 core equivalence: the implemented `slugify` computes exactly the
procedure described by the specification (the trim step of the source is
redundant relative to the run replacement and the hyphen stripping). -/
theorem slugify_eq_slugifySpec (l : List Char) : slugify l = slugifySpec l := by
  unfold slugify slugifySpec jsTrim
  rw [stripHyphens_replaceRuns_trimStart, stripHyphens_replaceRuns_trimEnd]

/-! ### Shape of slugify output and idempotence (claim C7) -/

/-- Characters that can appear in a slug: the class `[a-z0-9]` or a hyphen. -/
def slugChar (c : Char) : Bool := isAlnum c || c = '-'

/-- Separation property: no two adjacent hyphens. -/
def NoAdjHyph (l : List Char) : Prop :=
  l.Chain' (fun a b => ¬(a = '-' ∧ b = '-'))

theorem mem_dropWhile {α : Type} {p : α → Bool} {a : α} :
    ∀ {l : List α}, a ∈ l.dropWhile p → a ∈ l := by
  intro l
  induction l with
  | nil => simp [List.dropWhile]
  | cons x xs ih =>
    by_cases hx : p x
    · rw [List.dropWhile_cons_of_pos hx]
      intro h
      exact List.mem_cons_of_mem x (ih h)
    · rw [List.dropWhile_cons_of_neg hx]
      exact id

theorem noAdjHyph_dropWhile {p : Char → Bool} :
    ∀ {l : List Char}, NoAdjHyph l → NoAdjHyph (l.dropWhile p) := by
  intro l
  induction l with
  | nil => intro h; exact h
  | cons x xs ih =>
    intro h
    by_cases hx : p x
    · rw [List.dropWhile_cons_of_pos hx]
      exact ih (List.Chain'.tail h)
    · rw [List.dropWhile_cons_of_neg hx]
      exact h

theorem noAdjHyph_reverse {l : List Char} (h : NoAdjHyph l) : NoAdjHyph l.reverse := by
  rw [NoAdjHyph, List.chain'_reverse]
  exact h.imp (fun a b hab => fun hc => hab ⟨hc.2, hc.1⟩)

/-- Every character of the replacement lies in the slug alphabet. -/
theorem slugChar_of_mem_replaceRuns :
    ∀ (l : List Char) (c : Char), c ∈ replaceRuns l → slugChar c = true := by
  intro l
  induction l with
  | nil => intro c h; simp [replaceRuns_nil] at h
  | cons a as ih =>
    intro c h
    by_cases ha : isAlnum a
    · rw [replaceRuns_cons_pos as ha] at h
      rcases List.mem_cons.mp h with h | h
      · subst h; simp [slugChar, ha]
      · exact ih c h
    · rw [replaceRuns_cons a as, if_neg (by simpa using ha)] at h
      by_cases hh : (replaceRuns as).head? = some '-'
      · rw [if_pos hh] at h
        exact ih c h
      · rw [if_neg hh] at h
        rcases List.mem_cons.mp h with h | h
        · subst h; simp [slugChar]
        · exact ih c h

/-- The replacement never contains two adjacent hyphens. -/
theorem noAdjHyph_replaceRuns : ∀ (l : List Char), NoAdjHyph (replaceRuns l) := by
  intro l
  induction l with
  | nil => simp [replaceRuns_nil, NoAdjHyph]
  | cons a as ih =>
    by_cases ha : isAlnum a
    · rw [replaceRuns_cons_pos as ha]
      refine List.chain'_cons'.mpr ⟨?_, ih⟩
      intro y _
      intro hc
      exact (ne_hyphen_of_isAlnum ha) hc.1
    · rw [replaceRuns_cons a as, if_neg (by simpa using ha)]
      by_cases hh : (replaceRuns as).head? = some '-'
      · rw [if_pos hh]; exact ih
      · rw [if_neg hh]
        refine List.chain'_cons'.mpr ⟨?_, ih⟩
        intro y hy
        intro hc
        rw [hc.2] at hy
        exact hh hy

/-- Characters fixed by lowercasing: everything in the slug alphabet. -/
theorem jsToLower_slugChar {c : Char} (h : slugChar c = true) : jsToLower c = c := by
  unfold jsToLower
  rw [if_neg]
  simp only [slugChar, Bool.or_eq_true, decide_eq_true_eq] at h
  rcases h with h | h
  · simp only [isAlnum, Bool.or_eq_true, Bool.and_eq_true, decide_eq_true_eq] at h
    simp only [Bool.and_eq_true, decide_eq_true_eq, not_and]
    omega
  · subst h
    decide

/-- Slug characters are not whitespace. -/
theorem not_ws_of_slugChar {c : Char} (h : slugChar c = true) : isJsWs c = false := by
  rw [Bool.eq_false_iff]
  intro hw
  simp only [slugChar, Bool.or_eq_true, decide_eq_true_eq] at h
  rcases h with h | h
  · rw [isAlnum_of_isJsWs hw] at h
    exact Bool.false_ne_true h
  · subst h
    simp [isJsWs] at hw

/-- Lists whose head does not satisfy the predicate are fixed by dropWhile. -/
theorem dropWhile_eq_self_of_head {α : Type} {p : α → Bool} {l : List α}
    (h : ∀ a, l.head? = some a → p a = false) : l.dropWhile p = l := by
  cases l with
  | nil => rfl
  | cons x xs =>
    rw [List.dropWhile_cons_of_neg]
    simp [h x rfl]

/-- Whitespace-free lists are fixed by trimming. -/
theorem jsTrim_eq_self {l : List Char} (h : ∀ c ∈ l, isJsWs c = false) :
    jsTrim l = l := by
  have hEnd : jsTrimEnd l = l := by
    unfold jsTrimEnd
    have hd : l.reverse.dropWhile isJsWs = l.reverse := by
      apply dropWhile_eq_self_of_head
      intro a ha
      apply h
      have hm : a ∈ l.reverse := List.mem_of_mem_head? (by simp [ha])
      simpa using hm
    rw [hd, List.reverse_reverse]
  have hStart : jsTrimStart l = l := by
    unfold jsTrimStart
    apply dropWhile_eq_self_of_head
    intro a ha
    apply h
    exact List.mem_of_mem_head? (by simp [ha])
  unfold jsTrim
  rw [hEnd, hStart]

/-- Lists over the slug alphabet with no adjacent hyphens are fixed by the
run replacement. -/
theorem replaceRuns_eq_self :
    ∀ (l : List Char), (∀ c ∈ l, slugChar c = true) → NoAdjHyph l →
      replaceRuns l = l := by
  intro l
  induction l with
  | nil => intro _ _; rfl
  | cons a as ih =>
    intro hmem hadj
    have has : replaceRuns as = as :=
      ih (fun c hc => hmem c (List.mem_cons_of_mem a hc)) (List.Chain'.tail hadj)
    by_cases ha : isAlnum a
    · rw [replaceRuns_cons_pos as ha, has]
    · have ha' : a = '-' := by
        have := hmem a (List.mem_cons_self a as)
        simp only [slugChar, Bool.or_eq_true, decide_eq_true_eq] at this
        rcases this with h | h
        · exact absurd h ha
        · exact h
      subst ha'
      rw [replaceRuns_cons '-' as, if_neg (by simp [isAlnum_hyphen]), has, if_neg]
      intro hh
      have hh' := List.chain'_cons'.mp hadj
      cases as with
      | nil => simp at hh
      | cons b bs =>
        have hb : b = '-' := by simpa using hh
        exact (hh'.1 b rfl) ⟨rfl, hb⟩

/-- Lists with no hyphen at either end are fixed by the stripping pass. -/
theorem stripHyphens_eq_self {l : List Char}
    (hhead : l.head? ≠ some '-') (hlast : l.getLast? ≠ some '-') :
    stripHyphens l = l := by
  have hT : stripTrail l = l := by
    unfold stripTrail
    rw [dropWhile_eq_self_of_head (fun a ha => by
      rw [List.head?_reverse] at ha
      simp only [decide_eq_false_iff_not]
      intro hc
      subst hc
      exact hlast ha), List.reverse_reverse]
  have hL : stripLead l = l := by
    unfold stripLead
    exact dropWhile_eq_self_of_head (fun a ha => by
      simp only [decide_eq_false_iff_not]
      intro hc
      subst hc
      exact hhead ha)
  unfold stripHyphens
  rw [hT, hL]

theorem head?_stripLead_ne_hyphen (l : List Char) :
    (stripLead l).head? ≠ some '-' := by
  intro h
  have hmem := List.head?_dropWhile_not (fun c => decide (c = '-')) l
  unfold stripLead at h
  rw [h] at hmem
  simp at hmem

/-- Membership in the stripped list implies membership in the original. -/
theorem mem_stripHyphens {c : Char} {l : List Char} (h : c ∈ stripHyphens l) :
    c ∈ l := by
  unfold stripHyphens stripLead stripTrail at h
  have h1 := mem_dropWhile h
  rw [List.mem_reverse] at h1
  have h2 := mem_dropWhile h1
  rwa [List.mem_reverse] at h2

theorem noAdjHyph_stripHyphens {l : List Char} (h : NoAdjHyph l) :
    NoAdjHyph (stripHyphens l) := by
  unfold stripHyphens stripLead stripTrail
  apply noAdjHyph_dropWhile
  apply noAdjHyph_reverse
  apply noAdjHyph_dropWhile
  exact noAdjHyph_reverse h

/-- Last element of a dropWhile result, when it is nonempty, is the last
element of the original list. -/
theorem getLast?_dropWhile {α : Type} (p : α → Bool) (l : List α)
    (h : l.dropWhile p ≠ []) : (l.dropWhile p).getLast? = l.getLast? := by
  conv_rhs => rw [← List.takeWhile_append_dropWhile (p := p) (l := l)]
  rw [List.getLast?_append]
  cases hg : (l.dropWhile p).getLast? with
  | none => exact absurd (List.getLast?_eq_none_iff.mp hg) h
  | some a => rfl

theorem getLast?_stripHyphens_ne_hyphen (l : List Char) :
    (stripHyphens l).getLast? ≠ some '-' := by
  unfold stripHyphens stripLead stripTrail
  set w : List Char := (l.reverse.dropWhile fun c => decide (c = '-')).reverse with hw
  have hwlast : w.getLast? ≠ some '-' := by
    rw [hw, List.getLast?_eq_head?_reverse, List.reverse_reverse]
    intro hcon
    have hmem := List.head?_dropWhile_not (fun c => decide (c = '-')) l.reverse
    rw [hcon] at hmem
    simp at hmem
  by_cases hnil : w.dropWhile (fun c => decide (c = '-')) = []
  · rw [hnil]
    simp
  · rw [getLast?_dropWhile _ w hnil]
    exact hwlast

/-- Claim C7: slugify is idempotent. -/
theorem slugify_idempotent (l : List Char) : slugify (slugify l) = slugify l := by
  rw [slugify_eq_slugifySpec l]
  set z := slugifySpec l with hz
  have hzdef : z = stripHyphens (replaceRuns (l.map jsToLower)) := hz
  have hmem : ∀ c ∈ z, slugChar c = true := by
    intro c hc
    rw [hzdef] at hc
    exact slugChar_of_mem_replaceRuns _ c (mem_stripHyphens hc)
  have hadj : NoAdjHyph z := by
    rw [hzdef]
    exact noAdjHyph_stripHyphens (noAdjHyph_replaceRuns _)
  have hhead : z.head? ≠ some '-' := by
    rw [hzdef]
    exact head?_stripLead_ne_hyphen _
  have hlast : z.getLast? ≠ some '-' := by
    rw [hzdef]
    exact getLast?_stripHyphens_ne_hyphen _
  have hlower : z.map jsToLower = z :=
    (List.map_congr_left (fun c hc => jsToLower_slugChar (hmem c hc))).trans
      (List.map_id z)
  unfold slugify
  rw [hlower, jsTrim_eq_self (fun c hc => not_ws_of_slugChar (hmem c hc)),
    replaceRuns_eq_self z hmem hadj, stripHyphens_eq_self hhead hlast]

/-! ### Trim invariance of normalizeTime (claims C6 and C10) -/

/-- Trimming ignores whitespace padding on both sides. -/
theorem jsTrim_pad (w1 t w2 : List Char)
    (h1 : ∀ c ∈ w1, isJsWs c = true) (h2 : ∀ c ∈ w2, isJsWs c = true) :
    jsTrim (w1 ++ t ++ w2) = jsTrim t := by
  have hEnd : jsTrimEnd ((w1 ++ t) ++ w2) = jsTrimEnd (w1 ++ t) := by
    unfold jsTrimEnd
    rw [List.reverse_append, List.dropWhile_append_of_pos (by
      intro a ha
      exact h2 a (by simpa using ha))]
  have hBoth : jsTrim (w1 ++ t) = jsTrim t := by
    unfold jsTrim jsTrimEnd jsTrimStart
    rw [List.reverse_append, List.dropWhile_append]
    split
    · next he =>
      simp only [List.isEmpty_iff] at he
      rw [he]
      have hnil : List.dropWhile isJsWs w1.reverse = [] := by
        rw [List.dropWhile_eq_nil_iff]
        intro a ha
        exact h1 a (by simpa using ha)
      rw [hnil]
    · next he =>
      rw [List.reverse_append, List.dropWhile_append_of_pos (by
        intro a ha
        have ha' : a ∈ w1 := by simpa using ha
        exact h1 a ha')]
  unfold jsTrim at hBoth ⊢
  rw [hEnd]
  exact hBoth

/-- Claim C10 core: normalizeTime is invariant under whitespace padding. -/
theorem normalizeTime_pad (w1 t w2 : List Char)
    (h1 : ∀ c ∈ w1, isJsWs c = true) (h2 : ∀ c ∈ w2, isJsWs c = true) :
    normalizeTime (w1 ++ t ++ w2) = normalizeTime t := by
  unfold normalizeTime
  rw [jsTrim_pad w1 t w2 h1 h2]

/-- Corrected reading of claim C6: the implementation accepts exactly the
inputs whose trimmed form matches the claimed pattern with the claimed
ranges, and produces the zero-padded rendering. -/
theorem normalizeTime_eq_spec_trim (l : List Char) :
    normalizeTime l = normalizeTimeSpec (jsTrim l) := by
  unfold normalizeTime normalizeTimeSpec
  cases hp : parseHHMM (jsTrim l) with
  | none => rfl
  | some hm =>
    obtain ⟨h, m⟩ := hm
    dsimp only
    by_cases hh : (decide (h > 23) || decide (m > 59)) = true
    · have hne : ¬ ((decide (h ≤ 23) && decide (m ≤ 59)) = true) := by
        simp only [Bool.or_eq_true, decide_eq_true_eq] at hh
        simp only [Bool.and_eq_true, decide_eq_true_eq, not_and]
        omega
      rw [if_pos hh, if_neg hne]
    · have hpos : (decide (h ≤ 23) && decide (m ≤ 59)) = true := by
        simp only [Bool.or_eq_true, decide_eq_true_eq, not_or] at hh
        simp only [Bool.and_eq_true, decide_eq_true_eq]
        omega
      rw [if_neg hh, if_pos hpos]

/-! ### Claim theorems for the pure string functions -/

/-- Claim C5: slugify equals the specified lowercase, run-replacement and
hyphen-stripping procedure on every input, and matches the two quoted
examples. -/
theorem claim_C5_slugify_functional :
    (∀ l : List Char, slugify l = slugifySpec l) ∧
    slugify ("Cloud Next 2027".toList) = "cloud-next-2027".toList ∧
    slugify ("  A///B  ".toList) = "a-b".toList :=
  ⟨slugify_eq_slugifySpec, by decide, by decide⟩

/-- Claim C7: slugify is idempotent on every input string. -/
theorem claim_C7_slugify_idempotent :
    ∀ l : List Char, slugify (slugify l) = slugify l :=
  slugify_idempotent

/-- Claim C6 as stated is false at the whitespace-padded input: the claimed
acceptance condition rejects it (it does not match the bare pattern), yet
the implementation accepts it, because the implementation trims first. -/
theorem claim_C6_counterexample :
    normalizeTime (" 09:05 ".toList) = some ("09:05".toList) ∧
    normalizeTimeSpec (" 09:05 ".toList) = none :=
  ⟨by decide, by decide⟩

/-- Claim C6, amended by the trimming step: normalizeTime accepts exactly
the inputs whose trimmed form matches a one-or-two-digit hour, a colon and
an exactly-two-digit minute with hour at most 23 and minute at most 59,
rendering the zero-padded form, and it decides the four quoted examples as
claimed. -/
theorem claim_C6_normalizeTime_amended :
    (∀ l : List Char, normalizeTime l = normalizeTimeSpec (jsTrim l)) ∧
    normalizeTime ("9:5".toList) = none ∧
    normalizeTime ("09:05".toList) = some ("09:05".toList) ∧
    normalizeTime ("23:59".toList) = some ("23:59".toList) ∧
    normalizeTime ("24:00".toList) = none :=
  ⟨normalizeTime_eq_spec_trim, by decide, by decide, by decide, by decide⟩

/-- Claim C10: normalizeTime strips whitespace padding before matching, and
the padded example is accepted with the canonical result. -/
theorem claim_C10_normalizeTime_trims :
    (∀ w1 t w2 : List Char, (∀ c ∈ w1, isJsWs c = true) →
      (∀ c ∈ w2, isJsWs c = true) →
      normalizeTime (w1 ++ t ++ w2) = normalizeTime t) ∧
    normalizeTime (" 09:05 ".toList) = some ("09:05".toList) :=
  ⟨normalizeTime_pad, by decide⟩

/-- Witness for claim C10: the padding theorem applied at the concrete
padded example. -/
theorem claim_C10_witness :
    normalizeTime ((" ".toList) ++ ("09:05".toList) ++ (" ".toList)) =
      normalizeTime ("09:05".toList) :=
  (claim_C10_normalizeTime_trims.1 (" ".toList) ("09:05".toList) (" ".toList)
    (by decide) (by decide))

/-! ### Event schema (database/event.model.ts)

An `EventDoc` carries the fields of the `EventDocument` interface, with the
storage identity (`_id`) as `id`; the system-managed `createdAt` and
`updatedAt` timestamps are not part of the modeled logic.  An absent slug
and an empty slug are both falsy in the source (`!this.slug`), so `slug` is
a plain list with `[]` standing for unset-or-empty. -/

structure EventDoc where
  id : Nat
  title : List Char
  slug : List Char
  description : List Char
  overview : List Char
  image : List Char
  venue : List Char
  location : List Char
  date : List Char
  time : List Char
  mode : List Char
  audience : List Char
  agenda : List (List Char)
  organizer : List Char
  tags : List (List Char)
deriving DecidableEq

/-- Results of `isModified` for the three fields the pre-save hook queries. -/
structure Modified where
  title : Bool
  date : Bool
  time : Bool
deriving DecidableEq

/-- Error kinds surfaced by the modeled save pipelines. -/
inductive SaveErr where
  | invalidDate
  | invalidTime
  | validationFailure
  | uniqueViolation
  | danglingRef
deriving DecidableEq

/-- Model of `nonEmptyStringValidator`: the value must be non-empty after
trimming. -/
def nonEmptyStringValidator (l : List Char) : Bool :=
  decide (0 < (jsTrim l).length)

/-- Effect of the `trim: true` setters of the schema: every string field of
the schema carries one, while `agenda` and `tags` do not. -/
def applyEventTrims (e : EventDoc) : EventDoc :=
  { e with
    title := jsTrim e.title, slug := jsTrim e.slug,
    description := jsTrim e.description, overview := jsTrim e.overview,
    image := jsTrim e.image, venue := jsTrim e.venue,
    location := jsTrim e.location, date := jsTrim e.date,
    time := jsTrim e.time, mode := jsTrim e.mode,
    audience := jsTrim e.audience, organizer := jsTrim e.organizer }

/-- Model of the schema validators.  Every required string field checks
non-emptiness after trimming; `agenda` and `tags` must be non-empty arrays
of non-empty strings.  The `slug` field declares no validator at all in the
source — only `unique`, `index` and `trim` — so no condition on `slug`
appears here. -/
def validEventFields (e : EventDoc) : Bool :=
  nonEmptyStringValidator e.title && nonEmptyStringValidator e.description &&
  nonEmptyStringValidator e.overview && nonEmptyStringValidator e.image &&
  nonEmptyStringValidator e.venue && nonEmptyStringValidator e.location &&
  nonEmptyStringValidator e.date && nonEmptyStringValidator e.time &&
  nonEmptyStringValidator e.mode && nonEmptyStringValidator e.audience &&
  (!e.agenda.isEmpty && e.agenda.all nonEmptyStringValidator) &&
  nonEmptyStringValidator e.organizer &&
  (!e.tags.isEmpty && e.tags.all nonEmptyStringValidator)

/-- Slug step of the Event pre-save hook: regenerate the slug exactly when
the title is modified or the slug is falsy (absent or empty). -/
def hookSlug (m : Modified) (e : EventDoc) : EventDoc :=
  if m.title || e.slug.isEmpty then { e with slug := slugify e.title } else e

/-- Date step of the Event pre-save hook.  `normDate` abstracts the
JavaScript runtime primitive `new Date(s)` followed by `toISOString()` — a
platform facility, not repository code — returning `none` exactly when the
parsed time value is NaN, in which case the hook throws `invalidDate`. -/
def hookDate (normDate : List Char → Option (List Char)) (m : Modified)
    (e : EventDoc) : Except SaveErr EventDoc :=
  if m.date then
    match normDate e.date with
    | none => Except.error SaveErr.invalidDate
    | some d => Except.ok { e with date := d }
  else Except.ok e

/-- Time step of the Event pre-save hook: when the time is modified, a
non-matching value throws `invalidTime`, otherwise the canonical form is
stored. -/
def hookTime (m : Modified) (e : EventDoc) : Except SaveErr EventDoc :=
  if m.time then
    match normalizeTime e.time with
    | none => Except.error SaveErr.invalidTime
    | some t => Except.ok { e with time := t }
  else Except.ok e

/-- Model of the Event pre-save hook, running the slug, date and time steps
in source order. -/
def eventPreSave (normDate : List Char → Option (List Char)) (m : Modified)
    (e : EventDoc) : Except SaveErr EventDoc :=
  match hookDate normDate m (hookSlug m e) with
  | Except.error err => Except.error err
  | Except.ok e2 => hookTime m e2

/-- Model of a full Event save against a stored collection: field trimming
by the setters, schema validation, the user pre-save hook, and the write
guarded by the unique index on `slug` (mongoose runs document validation
before user pre-save hooks, and the unique index is enforced by the storage
engine at write time). -/
def saveEvent (normDate : List Char → Option (List Char)) (st : List EventDoc)
    (m : Modified) (e : EventDoc) : Except SaveErr (List EventDoc) :=
  if validEventFields (applyEventTrims e) then
    match eventPreSave normDate m (applyEventTrims e) with
    | Except.error err => Except.error err
    | Except.ok e1 =>
      if st.any (fun x => decide (x.slug = e1.slug)) then
        Except.error SaveErr.uniqueViolation
      else Except.ok (st ++ [e1])
  else Except.error SaveErr.validationFailure

/-! ### Booking schema (database/booking.model.ts) -/

structure BookingDoc where
  eventId : Nat
  email : List Char
deriving DecidableEq

/-- Model of the acceptance of `EMAIL_REGEX`,
the anchored pattern of one or more characters outside whitespace and `@`,
an `@`, one or more such characters, a dot, and one or more such
characters.  A match forces exactly one `@`; the part after the `@` must
contain a dot that is neither its first nor its last character (the two
inner groups around some dot must both be non-empty). -/
def emailOk (l : List Char) : Bool :=
  match l.splitOn '@' with
  | [lp, dom] =>
    !lp.isEmpty && lp.all (fun c => !isJsWs c) &&
    !dom.isEmpty && dom.all (fun c => !isJsWs c) &&
    ((dom.drop 1).dropLast).contains '.'
  | _ => false

/-- Stored state: the Event collection and the Booking collection. -/
structure Store where
  events : List EventDoc
  bookings : List BookingDoc
deriving DecidableEq

/-- Model of a Booking save: the `lowercase` and `trim` setters on `email`,
the email format validator, then the pre-save referential-integrity hook
(`Event.exists` on the referenced identity; a miss throws and aborts the
save), then the write. -/
def saveBooking (st : Store) (b : BookingDoc) : Except SaveErr Store :=
  if emailOk (jsTrim (b.email.map jsToLower)) then
    if st.events.any (fun ev => decide (ev.id = b.eventId)) then
      Except.ok { st with bookings :=
        st.bookings ++ [{ b with email := jsTrim (b.email.map jsToLower) }] }
    else Except.error SaveErr.danglingRef
  else Except.error SaveErr.validationFailure

/-! ### GET-by-slug route handler (app/api/events/[slug]/route.ts) -/

/-- Continuation of the slug pattern after at least one character of the
class has been consumed: the remainder is a possibly empty sequence of
further class characters and hyphen-separated non-empty class segments. -/
def slugSegTail : List Char → Bool
  | [] => true
  | '-' :: rest =>
    match rest with
    | [] => false
    | c :: r => isAlnum c && slugSegTail r
  | c :: r => isAlnum c && slugSegTail r

/-- Decision procedure of `SLUG_REGEX`, the anchored pattern of one or more
`[a-z0-9]` characters followed by any number of hyphen-prefixed non-empty
`[a-z0-9]` segments. -/
def SLUG_REGEX_test : List Char → Bool
  | [] => false
  | c :: r => isAlnum c && slugSegTail r

/-- Model of `getSlug`: the route parameter wins when it is a string that is
non-empty after trimming; otherwise the query-string value is used under the
same condition; otherwise no slug is available.  A rejected params promise
behaves as an absent route parameter. -/
def queryFallback (fq : Option (List Char)) : Option (List Char) :=
  match fq with
  | some q => if 0 < (jsTrim q).length then some q else none
  | none => none

def getSlug (fp fq : Option (List Char)) : Option (List Char) :=
  match fp with
  | some s => if 0 < (jsTrim s).length then some s else queryFallback fq
  | none => queryFallback fq

/-- Observable outcome of the handler: the HTTP status of the JSON response
it returns, and whether `connectToDatabase` (and hence the query) was
reached.  All outcomes, including the 404 miss, are ordinary return values
of the handler — the model is a total function, mirroring that the handler
returns `jsonError` responses instead of throwing. -/
structure GETResult where
  status : Nat
  connected : Bool
deriving DecidableEq

/-- Model of the GET handler: missing slug gives 400 before any connection;
a slug failing `SLUG_REGEX` gives 400 before any connection; otherwise the
handler connects, runs `Event.findOne` on the slug, and returns 404 on a
miss or 200 on a hit. -/
def GET (fp fq : Option (List Char)) (events : List EventDoc) : GETResult :=
  match getSlug fp fq with
  | none => { status := 400, connected := false }
  | some slug =>
    if SLUG_REGEX_test slug then
      match events.find? (fun ev => decide (ev.slug = slug)) with
      | none => { status := 404, connected := true }
      | some _ => { status := 200, connected := true }
    else { status := 400, connected := false }

/-! ### Lemmas about the pre-save hook steps -/

/-- The slug step only ever rewrites the slug field. -/
theorem hookSlug_shape (m : Modified) (e : EventDoc) :
    hookSlug m e = { e with slug := (hookSlug m e).slug } := by
  unfold hookSlug
  split
  · rfl
  · rfl

theorem hookSlug_slug_pos {m : Modified} {e : EventDoc}
    (h : (m.title || e.slug.isEmpty) = true) :
    (hookSlug m e).slug = slugify e.title := by
  unfold hookSlug
  rw [if_pos h]

theorem hookSlug_slug_neg {m : Modified} {e : EventDoc}
    (h : (m.title || e.slug.isEmpty) = false) :
    (hookSlug m e).slug = e.slug := by
  unfold hookSlug
  rw [if_neg (by simp [h])]

/-- Elimination form of the date step: on success, only the date field may
have been rewritten, it is unchanged when the date is not modified, and it
is the normalized value when it is. -/
theorem hookDate_ok {nd : List Char → Option (List Char)} {m : Modified}
    {e e2 : EventDoc} (h : hookDate nd m e = Except.ok e2) :
    e2 = { e with date := e2.date } ∧
    (m.date = false → e2.date = e.date) ∧
    (m.date = true → nd e.date = some e2.date) := by
  unfold hookDate at h
  by_cases hm : m.date = true
  · rw [if_pos hm] at h
    cases hnd : nd e.date with
    | none =>
      rw [hnd] at h
      exact absurd h (by simp)
    | some d =>
      rw [hnd] at h
      have he2 : e2 = { e with date := d } := (Except.ok.inj h).symm
      subst he2
      refine ⟨rfl, ?_, ?_⟩
      · intro hf
        rw [hm] at hf
        exact absurd hf (by simp)
      · intro _
        rfl
  · have hm' : m.date = false := by simpa using hm
    rw [if_neg hm] at h
    have he2 : e2 = e := (Except.ok.inj h).symm
    subst he2
    refine ⟨rfl, fun _ => rfl, ?_⟩
    intro ht
    rw [hm'] at ht
    exact absurd ht (by simp)

/-- Elimination form of the time step, as for the date step. -/
theorem hookTime_ok {m : Modified} {e e2 : EventDoc}
    (h : hookTime m e = Except.ok e2) :
    e2 = { e with time := e2.time } ∧
    (m.time = false → e2.time = e.time) ∧
    (m.time = true → normalizeTime e.time = some e2.time) := by
  unfold hookTime at h
  by_cases hm : m.time = true
  · rw [if_pos hm] at h
    cases hnt : normalizeTime e.time with
    | none =>
      rw [hnt] at h
      exact absurd h (by simp)
    | some t =>
      rw [hnt] at h
      have he2 : e2 = { e with time := t } := (Except.ok.inj h).symm
      subst he2
      refine ⟨rfl, ?_, ?_⟩
      · intro hf
        rw [hm] at hf
        exact absurd hf (by simp)
      · intro _
        rfl
  · have hm' : m.time = false := by simpa using hm
    rw [if_neg hm] at h
    have he2 : e2 = e := (Except.ok.inj h).symm
    subst he2
    refine ⟨rfl, fun _ => rfl, ?_⟩
    intro ht
    rw [hm'] at ht
    exact absurd ht (by simp)

/-- Claim C8: the Event pre-save hook re-normalizes only the affected
fields — every field other than slug, date and time is untouched, the slug
is regenerated from the title exactly when the title is modified or the
slug is falsy and kept otherwise, the date is re-stored exactly when
modified, and the time is re-normalized exactly when modified. -/
theorem claim_C8_preSave_frame (nd : List Char → Option (List Char))
    (m : Modified) (e e' : EventDoc)
    (hok : eventPreSave nd m e = Except.ok e') :
    e'.id = e.id ∧ e'.title = e.title ∧ e'.description = e.description ∧
    e'.overview = e.overview ∧ e'.image = e.image ∧ e'.venue = e.venue ∧
    e'.location = e.location ∧ e'.mode = e.mode ∧ e'.audience = e.audience ∧
    e'.agenda = e.agenda ∧ e'.organizer = e.organizer ∧ e'.tags = e.tags ∧
    ((m.title || e.slug.isEmpty) = true → e'.slug = slugify e.title) ∧
    ((m.title || e.slug.isEmpty) = false → e'.slug = e.slug) ∧
    (m.date = false → e'.date = e.date) ∧
    (m.date = true → nd e.date = some e'.date) ∧
    (m.time = false → e'.time = e.time) ∧
    (m.time = true → normalizeTime e.time = some e'.time) := by
  unfold eventPreSave at hok
  cases hd : hookDate nd m (hookSlug m e) with
  | error err =>
    rw [hd] at hok
    exact absurd hok (by simp)
  | ok e2 =>
    rw [hd] at hok
    obtain ⟨hC1, hC2, hC3⟩ := hookTime_ok hok
    obtain ⟨hB1, hB2, hB3⟩ := hookDate_ok hd
    have hA1 := hookSlug_shape m e
    have hslug : e'.slug = (hookSlug m e).slug := by rw [hC1, hB1]
    have hdate2 : e'.date = e2.date := by rw [hC1]
    have hdatehs : (hookSlug m e).date = e.date := by rw [hA1]
    have htime2 : e2.time = e.time := by rw [hB1, hA1]
    refine ⟨?_, ?_, ?_, ?_, ?_, ?_, ?_, ?_, ?_, ?_, ?_, ?_, ?_, ?_, ?_, ?_, ?_, ?_⟩
    · rw [hC1, hB1, hA1]
    · rw [hC1, hB1, hA1]
    · rw [hC1, hB1, hA1]
    · rw [hC1, hB1, hA1]
    · rw [hC1, hB1, hA1]
    · rw [hC1, hB1, hA1]
    · rw [hC1, hB1, hA1]
    · rw [hC1, hB1, hA1]
    · rw [hC1, hB1, hA1]
    · rw [hC1, hB1, hA1]
    · rw [hC1, hB1, hA1]
    · rw [hC1, hB1, hA1]
    · intro h
      rw [hslug]
      exact hookSlug_slug_pos h
    · intro h
      rw [hslug]
      exact hookSlug_slug_neg h
    · intro h
      rw [hdate2, hB2 h, hdatehs]
    · intro h
      have hb := hB3 h
      rw [hdatehs] at hb
      rw [hdate2]
      exact hb
    · intro h
      rw [hC2 h, htime2]
    · intro h
      have hc := hC3 h
      rw [htime2] at hc
      exact hc

/-- Concrete Event candidate whose title consists only of punctuation: every
field passes the schema validators, yet the title slugifies to the empty
string. -/
def exclaimEvent : EventDoc :=
  { id := 1, title := "!!!".toList, slug := [], description := "d".toList,
    overview := "o".toList, image := "i".toList, venue := "v".toList,
    location := "l".toList, date := "2025-07-01T00:00:00.000Z".toList,
    time := "09:05".toList, mode := "online".toList, audience := "devs".toList,
    agenda := ["intro".toList], organizer := "org".toList,
    tags := ["tech".toList] }

/-- Witness for claim C8: the frame theorem applied to the hook run on the
concrete candidate, with only the title modified; the regenerated slug is
the (empty) slugification of the title. -/
theorem claim_C8_witness : exclaimEvent.slug = slugify exclaimEvent.title := by
  obtain ⟨-, -, -, -, -, -, -, -, -, -, -, -, hslug, -⟩ :=
    claim_C8_preSave_frame (fun d => some d) ⟨true, false, false⟩
      exclaimEvent exclaimEvent (by rfl)
  exact hslug (by decide)

/-! ### Claim C3: empty slug is stored, not rejected -/

/-- Claim C3 as stated is false: saving the all-punctuation candidate
against an empty store succeeds — no validation failure is raised — and the
stored document carries the empty slug. -/
theorem claim_C3_counterexample :
    saveEvent (fun d => some d) [] ⟨true, true, true⟩ exclaimEvent =
      Except.ok [exclaimEvent] ∧
    slugify exclaimEvent.title = [] ∧ exclaimEvent.slug = [] :=
  ⟨rfl, rfl, rfl⟩

/-- Construction form of the date step under a defined normalizer. -/
theorem hookDate_total {nd : List Char → Option (List Char)} {m : Modified}
    {e : EventDoc} (hd : m.date = true → (nd e.date).isSome = true) :
    ∃ e2, hookDate nd m e = Except.ok e2 ∧ e2.slug = e.slug ∧ e2.time = e.time := by
  unfold hookDate
  by_cases hm : m.date = true
  · obtain ⟨d, hnd⟩ := Option.isSome_iff_exists.mp (hd hm)
    refine ⟨{ e with date := d }, ?_, rfl, rfl⟩
    rw [if_pos hm, hnd]
  · refine ⟨e, ?_, rfl, rfl⟩
    rw [if_neg hm]

/-- Construction form of the time step under a normalizable time. -/
theorem hookTime_total {m : Modified} {e : EventDoc}
    (ht : m.time = true → (normalizeTime e.time).isSome = true) :
    ∃ e3, hookTime m e = Except.ok e3 ∧ e3.slug = e.slug := by
  unfold hookTime
  by_cases hm : m.time = true
  · obtain ⟨t, hnt⟩ := Option.isSome_iff_exists.mp (ht hm)
    refine ⟨{ e with time := t }, ?_, rfl⟩
    rw [if_pos hm, hnt]
  · refine ⟨e, ?_, rfl⟩
    rw [if_neg hm]

/-- When the slug regeneration fires and the date and time steps succeed,
the hook completes and the resulting document carries the slugified title. -/
theorem eventPreSave_ok_slug {nd : List Char → Option (List Char)}
    {m : Modified} {e : EventDoc}
    (htrig : (m.title || e.slug.isEmpty) = true)
    (hd : m.date = true → (nd e.date).isSome = true)
    (ht : m.time = true → (normalizeTime e.time).isSome = true) :
    ∃ e3, eventPreSave nd m e = Except.ok e3 ∧ e3.slug = slugify e.title := by
  have hds : (hookSlug m e).date = e.date := by rw [hookSlug_shape]
  have hts : (hookSlug m e).time = e.time := by rw [hookSlug_shape]
  obtain ⟨e2, hd2, hslug2, htime2⟩ := hookDate_total (e := hookSlug m e)
    (fun hm => by rw [hds]; exact hd hm)
  obtain ⟨e3, ht3, hslug3⟩ := hookTime_total (e := e2)
    (fun hm => by rw [htime2, hts]; exact ht hm)
  refine ⟨e3, ?_, ?_⟩
  · unfold eventPreSave
    rw [hd2]
    exact ht3
  · rw [hslug3, hslug2]
    exact hookSlug_slug_pos htrig

/-- Claim C3, amended to what the code does: an Event candidate whose title
slugifies to the empty string and whose remaining normalization succeeds is
saved with the empty slug — the validators never reject it — and the save
can only fail through the unique index, when another stored Event already
carries the same empty slug. -/
theorem claim_C3_amended (nd : List Char → Option (List Char))
    (st : List EventDoc) (m : Modified) (e : EventDoc)
    (hv : validEventFields (applyEventTrims e) = true)
    (hempty : slugify (applyEventTrims e).title = [])
    (htrig : (m.title || (applyEventTrims e).slug.isEmpty) = true)
    (hd : m.date = true → (nd (applyEventTrims e).date).isSome = true)
    (ht : m.time = true → (normalizeTime (applyEventTrims e).time).isSome = true) :
    (st.any (fun x => decide (x.slug = ([] : List Char))) = false →
      ∃ e1, saveEvent nd st m e = Except.ok (st ++ [e1]) ∧ e1.slug = []) ∧
    (st.any (fun x => decide (x.slug = ([] : List Char))) = true →
      saveEvent nd st m e = Except.error SaveErr.uniqueViolation) := by
  obtain ⟨e3, hps, hs3⟩ := eventPreSave_ok_slug htrig hd ht
  have hs3' : e3.slug = [] := by rw [hs3, hempty]
  unfold saveEvent
  rw [if_pos hv, hps]
  constructor
  · intro hno
    refine ⟨e3, ?_, hs3'⟩
    simp only [hs3']
    rw [if_neg (by simp [hno])]
  · intro hyes
    simp only [hs3']
    rw [if_pos hyes]

/-- Witness for the amended claim C3: the concrete all-punctuation candidate
saved against the empty store is stored with an empty slug. -/
theorem claim_C3_witness :
    ∃ e1, saveEvent (fun d => some d) [] ⟨true, true, true⟩ exclaimEvent =
      Except.ok ([] ++ [e1]) ∧ e1.slug = [] :=
  (claim_C3_amended (fun d => some d) [] ⟨true, true, true⟩ exclaimEvent
    (by decide) (by decide) (by decide) (fun _ => rfl) (fun _ => rfl)).1 rfl

/-! ### Claim C4: referential integrity of Booking saves -/

/-- Claim C4: whenever no stored Event carries the identity referenced by
the booking at the moment of the pre-save existence check (which runs once
the email validator has passed), the save rejects with the dangling
reference error — so nothing is appended to the Booking collection —
regardless of the Bookings already stored. -/
theorem claim_C4_booking_dangling (st : Store) (b : BookingDoc)
    (hemail : emailOk (jsTrim (b.email.map jsToLower)) = true)
    (habsent : st.events.any (fun ev => decide (ev.id = b.eventId)) = false) :
    saveBooking st b = Except.error SaveErr.danglingRef := by
  unfold saveBooking
  rw [if_pos hemail, if_neg (by simp [habsent])]

/-- Witness for claim C4: a booking against an absent Event identity, with
two bookings already stored, is rejected as dangling. -/
theorem claim_C4_witness :
    saveBooking
      { events := [exclaimEvent],
        bookings := [{ eventId := 1, email := "a@b.co".toList },
                     { eventId := 1, email := "c@d.co".toList }] }
      { eventId := 99, email := "User@Mail.com".toList } =
      Except.error SaveErr.danglingRef :=
  claim_C4_booking_dangling _ _ (by decide) (by decide)

/-! ### Claim C9: GET handler input validation and miss behavior -/

/-- Claim C9: when a slug is obtained from the route parameters or the
query-string fallback, a slug failing the canonical pattern yields a 400
response without any database connection or query, and a well-formed slug
matching no stored Event yields a 404 response as an ordinary return value
after connecting. -/
theorem claim_C9_get_handler (fp fq : Option (List Char))
    (events : List EventDoc) (s : List Char) (hs : getSlug fp fq = some s) :
    (SLUG_REGEX_test s = false →
      GET fp fq events = { status := 400, connected := false }) ∧
    (SLUG_REGEX_test s = true →
      (∀ ev ∈ events, ev.slug ≠ s) →
      GET fp fq events = { status := 404, connected := true }) := by
  unfold GET
  rw [hs]
  dsimp only
  constructor
  · intro hbad
    rw [if_neg (by simp [hbad])]
  · intro hgood hmiss
    rw [if_pos hgood]
    have hfind : events.find? (fun ev => decide (ev.slug = s)) = none := by
      rw [List.find?_eq_none]
      intro ev hev
      simp only [decide_eq_true_eq]
      exact hmiss ev hev
    rw [hfind]

/-- Witness for claim C9: a malformed route slug is refused without
connecting, and a well-formed slug over the empty store misses with 404. -/
theorem claim_C9_witness :
    GET (some ("My Event".toList)) none [] = { status := 400, connected := false } ∧
    GET (some ("my-event".toList)) none [] = { status := 404, connected := true } :=
  ⟨(claim_C9_get_handler (some ("My Event".toList)) none [] ("My Event".toList)
      rfl).1 (by decide),
   (claim_C9_get_handler (some ("my-event".toList)) none [] ("my-event".toList)
      rfl).2 (by decide) (by intro ev hev; simp at hev)⟩

/-! ### Connection cache (lib/mongodb.ts, claims C1 and C2)

The body of `connectToDatabase` runs synchronously — hence atomically on the
single-threaded JavaScript event loop — from entry up to the `await` on line
59: it returns `cached.conn` if set; otherwise, if `cached.promise` is null,
it installs the promise, which starts the one underlying `mongoose.connect`
attempt; then it suspends on the shared promise.  The continuation after the
`await` stores the resolved handle into `cached.conn` and returns it; if the
promise rejected, the `await` rethrows and the continuation never runs — and
nothing ever resets `cached.promise`.  The transition system below has one
atomic step per such block, one step for the settlement of the connect
attempt (success or rejection), and a step that lets a caller whose
invocation ended in a rejection invoke the function again. -/

/-- Program counter of one caller of `connectToDatabase`. -/
inductive CallerPc where
  | start
  | waiting
  | retOk (h : Nat)
  | retErr
deriving DecidableEq

/-- Handles are numbered; the shared promise resolves to the `mongoose`
module object itself (`.then(() => mongoose)`), the same handle for every
awaiter. -/
def mongooseHandle : Nat := 0

/-- Cache state shared by two concurrent callers: `cached.conn`, whether
`cached.promise` is installed, the settlement of the single underlying
connect attempt (`none` while unsettled, `some true` resolved, `some false`
rejected), the number of `mongoose.connect` invocations so far, and the two
callers. -/
structure CacheState where
  conn : Option Nat
  promiseSet : Bool
  outcome : Option Bool
  attempts : Nat
  c1 : CallerPc
  c2 : CallerPc
deriving DecidableEq

/-- Initial state: no cached connection, no promise, no attempt started. -/
def initCache : CacheState :=
  { conn := none, promiseSet := false, outcome := none, attempts := 0,
    c1 := CallerPc.start, c2 := CallerPc.start }

/-- One atomic step of the system. -/
inductive Step : CacheState → CacheState → Prop where
  | sync1_hit (s : CacheState) (h : Nat) :
      s.c1 = CallerPc.start → s.conn = some h →
      Step s { s with c1 := CallerPc.retOk h }
  | sync1_join (s : CacheState) :
      s.c1 = CallerPc.start → s.conn = none → s.promiseSet = true →
      Step s { s with c1 := CallerPc.waiting }
  | sync1_new (s : CacheState) :
      s.c1 = CallerPc.start → s.conn = none → s.promiseSet = false →
      Step s { s with c1 := CallerPc.waiting, promiseSet := true,
                      attempts := s.attempts + 1 }
  | sync2_hit (s : CacheState) (h : Nat) :
      s.c2 = CallerPc.start → s.conn = some h →
      Step s { s with c2 := CallerPc.retOk h }
  | sync2_join (s : CacheState) :
      s.c2 = CallerPc.start → s.conn = none → s.promiseSet = true →
      Step s { s with c2 := CallerPc.waiting }
  | sync2_new (s : CacheState) :
      s.c2 = CallerPc.start → s.conn = none → s.promiseSet = false →
      Step s { s with c2 := CallerPc.waiting, promiseSet := true,
                      attempts := s.attempts + 1 }
  | settleOk (s : CacheState) :
      s.promiseSet = true → s.outcome = none →
      Step s { s with outcome := some true }
  | settleErr (s : CacheState) :
      s.promiseSet = true → s.outcome = none →
      Step s { s with outcome := some false }
  | cont1_ok (s : CacheState) :
      s.c1 = CallerPc.waiting → s.outcome = some true →
      Step s { s with conn := some mongooseHandle,
                      c1 := CallerPc.retOk mongooseHandle }
  | cont1_err (s : CacheState) :
      s.c1 = CallerPc.waiting → s.outcome = some false →
      Step s { s with c1 := CallerPc.retErr }
  | cont2_ok (s : CacheState) :
      s.c2 = CallerPc.waiting → s.outcome = some true →
      Step s { s with conn := some mongooseHandle,
                      c2 := CallerPc.retOk mongooseHandle }
  | cont2_err (s : CacheState) :
      s.c2 = CallerPc.waiting → s.outcome = some false →
      Step s { s with c2 := CallerPc.retErr }
  | call1_again (s : CacheState) :
      s.c1 = CallerPc.retErr → Step s { s with c1 := CallerPc.start }
  | call2_again (s : CacheState) :
      s.c2 = CallerPc.retErr → Step s { s with c2 := CallerPc.start }

/-- States reachable from the initial state. -/
inductive Reach : CacheState → Prop where
  | init : Reach initCache
  | step {s t : CacheState} : Reach s → Step s t → Reach t

/-- Reflexive-transitive closure of `Step`. -/
inductive StepStar : CacheState → CacheState → Prop where
  | refl (s : CacheState) : StepStar s s
  | tail {s t u : CacheState} : StepStar s t → Step t u → StepStar s u

theorem reach_of_star {s t : CacheState} (hs : Reach s) (h : StepStar s t) :
    Reach t := by
  induction h with
  | refl => exact hs
  | tail _ hstep ih => exact Reach.step ih hstep

/-- Inductive invariant of the cache: the attempt counter mirrors the
promise flag (so at most one attempt is ever started), a settlement implies
an installed promise, an absent promise means nothing has happened yet, a
cached connection is the unique resolved handle, and a caller can only have
returned the resolved handle. -/
def Inv (s : CacheState) : Prop :=
  (s.attempts = if s.promiseSet then 1 else 0) ∧
  (s.outcome ≠ none → s.promiseSet = true) ∧
  (s.promiseSet = false →
    s.conn = none ∧ s.c1 = CallerPc.start ∧ s.c2 = CallerPc.start) ∧
  (∀ h, s.conn = some h → h = mongooseHandle ∧ s.outcome = some true) ∧
  (∀ h, s.c1 = CallerPc.retOk h → h = mongooseHandle ∧ s.outcome = some true) ∧
  (∀ h, s.c2 = CallerPc.retOk h → h = mongooseHandle ∧ s.outcome = some true)

theorem Inv_init : Inv initCache := by
  refine ⟨rfl, fun h => absurd rfl h, fun _ => ⟨rfl, rfl, rfl⟩,
    fun h hc => Option.noConfusion hc, fun h hc => ?_, fun h hc => ?_⟩
  · exact CallerPc.noConfusion hc
  · exact CallerPc.noConfusion hc

theorem Inv_step {s t : CacheState} (hi : Inv s) (hst : Step s t) : Inv t := by
  obtain ⟨i1, i2, i3, i4, i5, i6⟩ := hi
  cases hst with
  | sync1_hit h hc1 hconn =>
    refine ⟨i1, i2, ?_, i4, ?_, i6⟩
    · intro hp
      exact absurd (i3 hp).1 (by rw [hconn]; simp)
    · intro h' hc
      have hh : h' = h := by
        have := CallerPc.retOk.inj hc
        omega
      subst hh
      exact i4 h' hconn
  | sync1_join hc1 hconn hp =>
    refine ⟨i1, i2, ?_, i4, ?_, i6⟩
    · intro hp'
      exact absurd hp (by rw [hp']; simp)
    · intro h' hc
      exact CallerPc.noConfusion hc
  | sync1_new hc1 hconn hp =>
    refine ⟨?_, fun _ => rfl, ?_, i4, ?_, i6⟩
    · rw [hp] at i1
      simp at i1
      simp [i1]
    · intro hfalse
      exact absurd hfalse (by simp)
    · intro h' hc
      exact CallerPc.noConfusion hc
  | sync2_hit h hc2 hconn =>
    refine ⟨i1, i2, ?_, i4, i5, ?_⟩
    · intro hp
      exact absurd (i3 hp).1 (by rw [hconn]; simp)
    · intro h' hc
      have hh : h' = h := by
        have := CallerPc.retOk.inj hc
        omega
      subst hh
      exact i4 h' hconn
  | sync2_join hc2 hconn hp =>
    refine ⟨i1, i2, ?_, i4, i5, ?_⟩
    · intro hp'
      exact absurd hp (by rw [hp']; simp)
    · intro h' hc
      exact CallerPc.noConfusion hc
  | sync2_new hc2 hconn hp =>
    refine ⟨?_, fun _ => rfl, ?_, i4, i5, ?_⟩
    · rw [hp] at i1
      simp at i1
      simp [i1]
    · intro hfalse
      exact absurd hfalse (by simp)
    · intro h' hc
      exact CallerPc.noConfusion hc
  | settleOk hp hout =>
    refine ⟨i1, fun _ => hp, ?_, ?_, ?_, ?_⟩
    · intro hp'
      exact absurd hp (by rw [hp']; simp)
    · intro h' hc
      exact absurd (i4 h' hc).2 (by rw [hout]; simp)
    · intro h' hc
      exact absurd (i5 h' hc).2 (by rw [hout]; simp)
    · intro h' hc
      exact absurd (i6 h' hc).2 (by rw [hout]; simp)
  | settleErr hp hout =>
    refine ⟨i1, fun _ => hp, ?_, ?_, ?_, ?_⟩
    · intro hp'
      exact absurd hp (by rw [hp']; simp)
    · intro h' hc
      exact absurd (i4 h' hc).2 (by rw [hout]; simp)
    · intro h' hc
      exact absurd (i5 h' hc).2 (by rw [hout]; simp)
    · intro h' hc
      exact absurd (i6 h' hc).2 (by rw [hout]; simp)
  | cont1_ok hc1 hout =>
    have hp : s.promiseSet = true := i2 (by rw [hout]; simp)
    refine ⟨i1, fun _ => hp, ?_, ?_, ?_, ?_⟩
    · intro hp'
      exact absurd hp (by rw [hp']; simp)
    · intro h' hc
      exact ⟨(Option.some.inj hc).symm, hout⟩
    · intro h' hc
      exact ⟨(CallerPc.retOk.inj hc).symm, hout⟩
    · intro h' hc
      exact i6 h' hc
  | cont1_err hc1 hout =>
    refine ⟨i1, i2, ?_, i4, ?_, i6⟩
    · intro hp
      have hp' : s.promiseSet = false := hp
      exact absurd (i2 (by rw [hout]; simp)) (by rw [hp']; simp)
    · intro h' hc
      exact CallerPc.noConfusion hc
  | cont2_ok hc2 hout =>
    have hp : s.promiseSet = true := i2 (by rw [hout]; simp)
    refine ⟨i1, fun _ => hp, ?_, ?_, ?_, ?_⟩
    · intro hp'
      exact absurd hp (by rw [hp']; simp)
    · intro h' hc
      exact ⟨(Option.some.inj hc).symm, hout⟩
    · intro h' hc
      exact i5 h' hc
    · intro h' hc
      exact ⟨(CallerPc.retOk.inj hc).symm, hout⟩
  | cont2_err hc2 hout =>
    refine ⟨i1, i2, ?_, i4, i5, ?_⟩
    · intro hp
      have hp' : s.promiseSet = false := hp
      exact absurd (i2 (by rw [hout]; simp)) (by rw [hp']; simp)
    · intro h' hc
      exact CallerPc.noConfusion hc
  | call1_again hc1 =>
    refine ⟨i1, i2, ?_, i4, ?_, i6⟩
    · intro hp
      exact ⟨(i3 hp).1, rfl, (i3 hp).2.2⟩
    · intro h' hc
      exact CallerPc.noConfusion hc
  | call2_again hc2 =>
    refine ⟨i1, i2, ?_, i4, i5, ?_⟩
    · intro hp
      exact ⟨(i3 hp).1, (i3 hp).2.1, rfl⟩
    · intro h' hc
      exact CallerPc.noConfusion hc

theorem Inv_of_reach {s : CacheState} (hs : Reach s) : Inv s := by
  induction hs with
  | init => exact Inv_init
  | step _ hstep ih => exact Inv_step ih hstep

/-- Claim C1: from the initial state, at every reachable state at most one
underlying connect attempt has been started, and whenever both callers have
returned successfully, exactly one attempt was made and both returned the
same handle, the shared mongoose object. -/
theorem claim_C1_connect_dedup (s : CacheState) (hs : Reach s) :
    s.attempts ≤ 1 ∧
    (∀ h1 h2, s.c1 = CallerPc.retOk h1 → s.c2 = CallerPc.retOk h2 →
      s.attempts = 1 ∧ h1 = mongooseHandle ∧ h2 = mongooseHandle) := by
  obtain ⟨i1, i2, i3, i4, i5, i6⟩ := Inv_of_reach hs
  constructor
  · rw [i1]
    split
    · omega
    · omega
  · intro h1 h2 hc1 hc2
    obtain ⟨hh1, ho1⟩ := i5 h1 hc1
    obtain ⟨hh2, -⟩ := i6 h2 hc2
    have hp : s.promiseSet = true := i2 (by rw [ho1]; simp)
    refine ⟨?_, hh1, hh2⟩
    rw [i1, hp]
    simp

/-- Terminal state of the successful two-caller run: one attempt, both
callers returned the shared handle. -/
def bothDoneState : CacheState :=
  { conn := some mongooseHandle, promiseSet := true, outcome := some true,
    attempts := 1, c1 := CallerPc.retOk mongooseHandle,
    c2 := CallerPc.retOk mongooseHandle }

/-- Witness for claim C1: the concrete interleaving in which the first
caller installs the promise, the attempt resolves, the first caller stores
the handle, and the second caller then hits the cache. -/
def sInstalled : CacheState :=
  ⟨none, true, none, 1, CallerPc.waiting, CallerPc.start⟩

def sResolved : CacheState :=
  ⟨none, true, some true, 1, CallerPc.waiting, CallerPc.start⟩

def sFirstDone : CacheState :=
  ⟨some mongooseHandle, true, some true, 1, CallerPc.retOk mongooseHandle, CallerPc.start⟩

theorem claim_C1_witness :
    bothDoneState.attempts ≤ 1 ∧
    (∀ h1 h2, bothDoneState.c1 = CallerPc.retOk h1 →
      bothDoneState.c2 = CallerPc.retOk h2 →
      bothDoneState.attempts = 1 ∧ h1 = mongooseHandle ∧ h2 = mongooseHandle) := by
  refine claim_C1_connect_dedup bothDoneState ?_
  have r1 : Reach sInstalled :=
    Reach.step Reach.init (Step.sync1_new initCache rfl rfl rfl)
  have r2 : Reach sResolved :=
    Reach.step r1 (Step.settleOk sInstalled rfl rfl)
  have r3 : Reach sFirstDone :=
    Reach.step r2 (Step.cont1_ok sResolved rfl rfl)
  exact Reach.step r3 (Step.sync2_hit sFirstDone mongooseHandle rfl rfl)

/-- Once the single connect attempt has rejected, every further execution
keeps the attempt counter unchanged — no fresh connect attempt is ever
started, because `cached.promise` is never cleared — the settlement stays
the rejection, and no caller can ever return a handle. -/
theorem connect_failure_poisons {s t : CacheState} (hs : Reach s)
    (hfail : s.outcome = some false) (hst : StepStar s t) :
    t.attempts = s.attempts ∧ t.outcome = some false ∧
    (∀ h, t.c1 ≠ CallerPc.retOk h) ∧ (∀ h, t.c2 ≠ CallerPc.retOk h) := by
  induction hst with
  | refl =>
    obtain ⟨-, -, -, -, i5, i6⟩ := Inv_of_reach hs
    refine ⟨rfl, hfail, ?_, ?_⟩
    · intro h hc
      obtain ⟨-, ho⟩ := i5 h hc
      rw [hfail] at ho
      simp at ho
    · intro h hc
      obtain ⟨-, ho⟩ := i6 h hc
      rw [hfail] at ho
      simp at ho
  | tail hprev hstep ih =>
    obtain ⟨ia, io, ic1, ic2⟩ := ih
    have hrt := reach_of_star hs hprev
    obtain ⟨i1, i2, i3, i4, i5, i6⟩ := Inv_of_reach hrt
    cases hstep with
    | sync1_hit h hc1 hconn =>
      exact absurd (i4 h hconn).2 (by rw [io]; simp)
    | sync1_join hc1 hconn hp =>
      refine ⟨ia, io, ?_, ic2⟩
      intro h hc
      exact CallerPc.noConfusion hc
    | sync1_new hc1 hconn hp =>
      exact absurd (i2 (by rw [io]; simp)) (by rw [hp]; simp)
    | sync2_hit h hc2 hconn =>
      exact absurd (i4 h hconn).2 (by rw [io]; simp)
    | sync2_join hc2 hconn hp =>
      refine ⟨ia, io, ic1, ?_⟩
      intro h hc
      exact CallerPc.noConfusion hc
    | sync2_new hc2 hconn hp =>
      exact absurd (i2 (by rw [io]; simp)) (by rw [hp]; simp)
    | settleOk hp hout =>
      rw [io] at hout
      exact absurd hout (by simp)
    | settleErr hp hout =>
      rw [io] at hout
      exact absurd hout (by simp)
    | cont1_ok hc1 hout =>
      rw [io] at hout
      exact absurd hout (by simp)
    | cont1_err hc1 hout =>
      refine ⟨ia, io, ?_, ic2⟩
      intro h hc
      exact CallerPc.noConfusion hc
    | cont2_ok hc2 hout =>
      rw [io] at hout
      exact absurd hout (by simp)
    | cont2_err hc2 hout =>
      refine ⟨ia, io, ic1, ?_⟩
      intro h hc
      exact CallerPc.noConfusion hc
    | call1_again hc1 =>
      refine ⟨ia, io, ?_, ic2⟩
      intro h hc
      exact CallerPc.noConfusion hc
    | call2_again hc2 =>
      refine ⟨ia, io, ic1, ?_⟩
      intro h hc
      exact CallerPc.noConfusion hc

/-- State after the attempt rejected and the first caller observed the
rejection: `cached.promise` is still installed, `cached.conn` is still null,
one attempt was made. -/
def poisonedState : CacheState :=
  { conn := none, promiseSet := true, outcome := some false, attempts := 1,
    c1 := CallerPc.retErr, c2 := CallerPc.start }

/-- State in which the attempt has rejected while the first caller still
awaits it. -/
def sRejected : CacheState :=
  ⟨none, true, some false, 1, CallerPc.waiting, CallerPc.start⟩

/-- State after the failed first caller has re-invoked the function. -/
def sRecalled : CacheState :=
  ⟨none, true, some false, 1, CallerPc.start, CallerPc.start⟩

/-- Claim C2 fails on the code: the run in which the single connect attempt
rejects is reachable, and from it every continuation — in particular any
subsequent call to `connectToDatabase` — keeps the attempt counter at one
(no fresh attempt is ever started, since the rejected `cached.promise` is
never cleared), stays rejected, and never yields a handle to any caller.
The spec requires a subsequent call to be able to retry; the code leaves the
cache slot permanently poisoned. -/
theorem claim_C2_code_bug :
    StepStar initCache poisonedState ∧
    (∀ t, StepStar poisonedState t →
      t.attempts = 1 ∧ t.outcome = some false ∧
      (∀ h, t.c1 ≠ CallerPc.retOk h) ∧ (∀ h, t.c2 ≠ CallerPc.retOk h)) := by
  have st1 : Step initCache sInstalled :=
    Step.sync1_new initCache rfl rfl rfl
  have st2 : Step sInstalled sRejected :=
    Step.settleErr sInstalled rfl rfl
  have st3 : Step sRejected poisonedState :=
    Step.cont1_err sRejected rfl rfl
  have hstar : StepStar initCache poisonedState :=
    StepStar.tail (StepStar.tail (StepStar.tail (StepStar.refl initCache) st1) st2) st3
  have hreach : Reach poisonedState := reach_of_star Reach.init hstar
  refine ⟨hstar, ?_⟩
  intro t ht
  exact connect_failure_poisons hreach rfl ht

/-- Witness for claim C2: the subsequent call itself — the failed caller
re-invokes the function, joins the stale rejected promise, and fails again,
with the attempt counter still at one. -/
theorem claim_C2_witness :
    poisonedState.attempts = 1 ∧ poisonedState.outcome = some false ∧
    (∀ h, poisonedState.c1 ≠ CallerPc.retOk h) ∧
    (∀ h, poisonedState.c2 ≠ CallerPc.retOk h) := by
  have s1 : Step poisonedState sRecalled :=
    Step.call1_again poisonedState rfl
  have s2 : Step sRecalled sRejected :=
    Step.sync1_join sRecalled rfl rfl rfl
  have s3 : Step sRejected poisonedState :=
    Step.cont1_err sRejected rfl rfl
  exact claim_C2_code_bug.2 poisonedState
    (StepStar.tail (StepStar.tail (StepStar.tail (StepStar.refl poisonedState) s1) s2) s3)

end DevEvents
